import Mathlib

/-!
Shallow embedding of the reactive derivation pipeline of `src/mnf-app/app.py`
(a stock-explorer dashboard over a local CSV).

Modelling conventions:
* a data-frame row is a `Row`: the columns the pipeline inspects (`Ticker`,
  `Date`, `Close`) are typed fields, and `cells` is the full row in the
  dataset's column order, as consumed by the snapshot stage;
* `pd.Timestamp` values compare linearly, so dates are embedded as `Int`;
* in-range float arithmetic on prices is embedded as exact `ℚ` arithmetic;
  the one place where IEEE-754 special values matter (division by a zero
  close in `get_change_percent`) is modelled separately with `FVal`;
* `NaN` cells produced by `rolling(...).mean()` are modelled as `Option`
  being `none` (and as the `Cell.nan` cell in the frame model);
* `df.sort_values("Date")` is modelled as a stable sort (`List.mergeSort`).
  pandas' default sort kind is `quicksort`, whose tie order is unspecified;
  the theorems below note where this modelling choice matters.
-/

namespace MnfApp

/-- A cell of a data frame: a numeric value (int or float in range), the
float `NaN`, or any other value rendered by its `str` form. -/
inductive Cell where
  | num (q : ℚ)
  | nan
  | text (s : String)
deriving DecidableEq, Repr

/-- One row of the loaded CSV. `ticker`, `date` and `close` are the columns
the pipeline reads; `cells` is the whole row in the dataset's column order
(standard OHLC fields plus any extra columns), used by the snapshot stage. -/
structure Row where
  ticker : String
  date : Int
  close : ℚ
  cells : List (String × Cell)
deriving DecidableEq, Repr

/-- The loaded dataset `data_all`: its rows, plus whether a `Ticker` column
is present (the source checks `"Ticker" in df.columns`). -/
structure Dataset where
  hasTicker : Bool
  rows : List Row
deriving DecidableEq, Repr

/-- Filter stage `get_data` (app.py lines 62-75): start from a copy of `data_all`, keep
the rows matching the selected ticker when a `Ticker` column exists, keep
the rows whose `Date` lies in the closed selected range, and sort by
`Date`. -/
def get_data (D : Dataset) (tkr : String) (d0 d1 : Int) : List Row :=
  let df := D.rows
  let df := if D.hasTicker then df.filter (fun r => r.ticker == tkr) else df
  let df := df.filter (fun r => decide (d0 ≤ r.date) && decide (r.date ≤ d1))
  List.mergeSort df (fun a b => decide (a.date ≤ b.date))

/-- The `Close` column of a frame, as read by `get_data()["Close"]`. -/
def closes (df : List Row) : List ℚ :=
  df.map (fun r => r.close)

/-- Metrics stage `get_change` (app.py lines 77-80):
`close.iloc[-1] - close.iloc[-2] if len(close) > 1 else 0`. -/
def get_change (close : List ℚ) : ℚ :=
  if 1 < close.length then
    close.getD (close.length - 1) 0 - close.getD (close.length - 2) 0
  else 0

/-- Metrics stage `get_change_percent` (app.py lines 82-88): when more than one close is
selected, `change / close.iloc[-2] * 100`, else `0`.  Exact-arithmetic
model; the IEEE-754 behaviour on a zero divisor is modelled by
`get_change_percent_float`. -/
def get_change_percent (close : List ℚ) : ℚ :=
  if 1 < close.length then
    (close.getD (close.length - 1) 0 - close.getD (close.length - 2) 0) /
      close.getD (close.length - 2) 0 * 100
  else 0

/-- An IEEE-754 double restricted to what the metrics stage can produce:
a finite (exactly represented) value, a signed infinity, or `NaN`. -/
inductive FVal where
  | fin (q : ℚ)
  | inf
  | negInf
  | nan
deriving DecidableEq, Repr

/-- IEEE-754 subtraction on `FVal` (signed zeros not distinguished). -/
def FVal.sub : FVal → FVal → FVal
  | .fin a, .fin b => .fin (a - b)
  | .inf, .fin _ => .inf
  | .negInf, .fin _ => .negInf
  | .fin _, .inf => .negInf
  | .fin _, .negInf => .inf
  | .inf, .negInf => .inf
  | .negInf, .inf => .negInf
  | .inf, .inf => .nan
  | .negInf, .negInf => .nan
  | .nan, _ => .nan
  | _, .nan => .nan

/-- IEEE-754 division on `FVal` (signed zeros not distinguished: the zeros
arising here are positive, e.g. a `Close` column value `0`). A nonzero
finite value divided by zero is a signed infinity; `0 / 0` is `NaN`. -/
def FVal.div : FVal → FVal → FVal
  | .fin a, .fin b =>
    if b = 0 then (if a = 0 then .nan else if 0 < a then .inf else .negInf)
    else .fin (a / b)
  | .inf, .fin b => if 0 ≤ b then .inf else .negInf
  | .negInf, .fin b => if 0 ≤ b then .negInf else .inf
  | .fin _, .inf => .fin 0
  | .fin _, .negInf => .fin 0
  | .inf, .inf => .nan
  | .inf, .negInf => .nan
  | .negInf, .inf => .nan
  | .negInf, .negInf => .nan
  | .nan, _ => .nan
  | _, .nan => .nan

/-- IEEE-754 multiplication on `FVal` (signed zeros not distinguished). -/
def FVal.mul : FVal → FVal → FVal
  | .fin a, .fin b => .fin (a * b)
  | .inf, .fin b => if b = 0 then .nan else if 0 < b then .inf else .negInf
  | .fin a, .inf => if a = 0 then .nan else if 0 < a then .inf else .negInf
  | .negInf, .fin b => if b = 0 then .nan else if 0 < b then .negInf else .inf
  | .fin a, .negInf => if a = 0 then .nan else if 0 < a then .negInf else .inf
  | .inf, .inf => .inf
  | .negInf, .negInf => .inf
  | .inf, .negInf => .negInf
  | .negInf, .inf => .negInf
  | .nan, _ => .nan
  | _, .nan => .nan

/-- Variant of `get_change_percent` with the `Close` column held as IEEE-754 doubles
(as pandas does): the expression `change / close.iloc[-2] * 100` evaluated
with float semantics.  Inputs are the exactly-represented close values. -/
def get_change_percent_float (close : List ℚ) : FVal :=
  if 1 < close.length then
    (((FVal.fin (close.getD (close.length - 1) 0)).sub
        (FVal.fin (close.getD (close.length - 2) 0))).div
      (FVal.fin (close.getD (close.length - 2) 0))).mul (FVal.fin 100)
  else .fin 0

/-- Round to the nearest integer, ties to even: the rounding used by
Python's fixed-point float formatting `f"{v:.2f}"`. -/
def roundHalfEven (x : ℚ) : Int :=
  let f := ⌊x⌋
  let r := x - (f : ℚ)
  if r < 1 / 2 then f
  else if 1 / 2 < r then f + 1
  else if f % 2 = 0 then f else f + 1

/-- Two decimal digits, left-padded with a zero: the fractional part of a
fixed-point rendering. -/
def pad2 (k : Nat) : String :=
  (if k < 10 then "0" else "") ++ toString k

/-- Python's `f"{v:.2f}"` on an exactly-represented value: fixed-point
rendering with exactly two decimal digits. -/
def fmt2 (q : ℚ) : String :=
  let n := roundHalfEven (q * 100)
  (if q < 0 then "-" else "") ++ toString (n.natAbs / 100) ++ "." ++ pad2 (n.natAbs % 100)

/-- The `price` output (app.py lines 90-93):
`f"{close.iloc[-1]:.2f}" if not close.empty else "N/A"`. -/
def price (close : List ℚ) : String :=
  if !close.isEmpty then fmt2 (close.getD (close.length - 1) 0) else "N/A"

/-- Pandas `Series.rolling(window=w).mean()` with the default `min_periods`
(= `w`): entry `i` is the mean of the trailing `w` values once `w`
observations have been seen, and `NaN` (here `none`) before that. -/
def rollingMean (w : Nat) (xs : List ℚ) : List (Option ℚ) :=
  (List.range xs.length).map (fun i =>
    if w ≤ i + 1 then some (((xs.take (i + 1)).drop (i + 1 - w)).sum / (w : ℚ))
    else none)

/-- The moving-average overlay of `price_history` (app.py lines 128-137):
the `SMA` column `df["Close"].rolling(window=7).mean()` is added, and the
overlay trace drawn, only when `len(df) >= 7`; otherwise there is no
overlay at all. -/
def price_history_sma (close : List ℚ) : Option (List (Option ℚ)) :=
  if 7 ≤ close.length then some (rollingMean 7 close) else none

/-- The `Value` formatting of `latest_data` (app.py line 155):
`f"{v:.2f}" if isinstance(v, (int, float)) else str(v)` (`NaN` is a float,
so it renders through the float path as `"nan"`). -/
def formatCell : Cell → String
  | .num q => fmt2 q
  | .nan => "nan"
  | .text s => s

/-- Snapshot stage `latest_data` (app.py lines 147-156): an empty frame for an empty
selection, otherwise the last row transposed into (`Category`, `Value`)
pairs, one per column, in the dataset's column order, with numeric values
formatted to two decimals. -/
def latest_data (df : List Row) : List (String × String) :=
  match df.getLast? with
  | none => []
  | some r => r.cells.map (fun nc => (nc.1, formatCell nc.2))

/-- A heap of data-frame objects: an allocation counter and a store mapping
frame identities to contents.  Mutation claims (frame conditions) are
stated against this model. -/
structure Heap where
  next : Nat
  store : List (Nat × List Row)
deriving Repr

/-- Association-list lookup for the frame store. -/
def assocGet : List (Nat × List Row) → Nat → Option (List Row)
  | [], _ => none
  | p :: t, i => if p.1 = i then some p.2 else assocGet t i

/-- Contents of a frame (the empty frame for an unallocated identity). -/
def Heap.get (h : Heap) (i : Nat) : List Row :=
  (assocGet h.store i).getD []

/-- Allocate a fresh frame holding `v` (a pandas operation returning a new
data frame: `copy()`, boolean-mask selection, `sort_values`,
`reset_index(drop=True)`). -/
def Heap.alloc (h : Heap) (v : List Row) : Nat × Heap :=
  (h.next, ⟨h.next + 1, (h.next, v) :: h.store⟩)

/-- Overwrite the contents of frame `i`: an in-place pandas mutation such
as the column assignment `df["SMA"] = ...`. -/
def Heap.set (h : Heap) (i : Nat) (v : List Row) : Heap :=
  ⟨h.next, h.store.map (fun p => if p.1 = i then (i, v) else p)⟩

/-- Filter stage `get_data` at the level of frame identities: `data_all.copy()`
allocates a fresh frame, each mask selection produces a new frame, and
`sort_values` (not `inplace`) returns a new frame. -/
def get_data_st (h : Heap) (dataAll : Nat) (hasTicker : Bool)
    (tkr : String) (d0 d1 : Int) : Nat × Heap :=
  let a0 := h.alloc (h.get dataAll)
  let a1 :=
    if hasTicker then a0.2.alloc ((a0.2.get a0.1).filter (fun r => r.ticker == tkr))
    else a0
  let a2 := a1.2.alloc
    ((a1.2.get a1.1).filter (fun r => decide (d0 ≤ r.date) && decide (r.date ≤ d1)))
  a2.2.alloc (List.mergeSort (a2.2.get a2.1) (fun a b => decide (a.date ≤ b.date)))

/-- Column assignment `df["SMA"] = df["Close"].rolling(window=7).mean()`: the new column
appended cell-wise to each row (`NaN` cells before the seventh row). -/
def setSMA (rows : List Row) : List Row :=
  rows.zipWith
    (fun r v =>
      { r with
        cells := r.cells ++
          [("SMA", match v with | some q => Cell.num q | none => Cell.nan)] })
    (rollingMean 7 (closes rows))

/-- Chart stage `price_history` at the level of frame identities (app.py lines
110-137): read the filtered frame, `reset_index(drop=True)` copies it into
a new frame, and when it has at least 7 rows the `SMA` column assignment
mutates that copy in place. -/
def price_history_st (h : Heap) (dataAll : Nat) (hasTicker : Bool)
    (tkr : String) (d0 d1 : Int) : Heap :=
  let a := get_data_st h dataAll hasTicker tkr d0 d1
  let b := a.2.alloc (a.2.get a.1)
  if 7 ≤ (b.2.get b.1).length then b.2.set b.1 (setSMA (b.2.get b.1)) else b.2

/-- Heap evolution below a bound: every frame identity below `n` keeps its
contents, and `n` stays within both allocation counters. -/
def EvolvesFrom (n : Nat) (h h' : Heap) : Prop :=
  n ≤ h.next ∧ n ≤ h'.next ∧ ∀ i, i < n → h'.get i = h.get i

theorem EvolvesFrom.trans {n : Nat} {h1 h2 h3 : Heap}
    (e1 : EvolvesFrom n h1 h2) (e2 : EvolvesFrom n h2 h3) : EvolvesFrom n h1 h3 :=
  ⟨e1.1, e2.2.1, fun i hi => (e2.2.2 i hi).trans (e1.2.2 i hi)⟩

theorem Heap.get_alloc_of_lt (h : Heap) (v : List Row) {i : Nat}
    (hi : i < h.next) : (h.alloc v).2.get i = h.get i := by
  have hne : ¬ h.next = i := by omega
  simp [Heap.alloc, Heap.get, assocGet, hne]

theorem assocGet_map_set (i j : Nat) (v : List Row) (hij : i ≠ j) :
    ∀ l : List (Nat × List Row),
      assocGet (l.map (fun p => if p.1 = j then (j, v) else p)) i = assocGet l i := by
  intro l
  induction l with
  | nil => rfl
  | cons p t ih =>
    by_cases hp : p.1 = j
    · have hne : ¬ j = i := fun e => hij e.symm
      simp [assocGet, hp, hne, ih]
    · by_cases hpi : p.1 = i
      · simp [assocGet, hp, hpi, hij]
      · simp [assocGet, hp, hpi, ih]

theorem Heap.get_set_ne (h : Heap) {i j : Nat} (v : List Row)
    (hij : i ≠ j) : (h.set j v).get i = h.get i := by
  simp [Heap.set, Heap.get, assocGet_map_set i j v hij]

theorem EvolvesFrom.alloc {n : Nat} {h : Heap} (hn : n ≤ h.next) (v : List Row) :
    EvolvesFrom n h (h.alloc v).2 :=
  ⟨hn, by simp only [Heap.alloc]; omega,
   fun i hi => h.get_alloc_of_lt v (show i < h.next by omega)⟩

theorem EvolvesFrom.set {n : Nat} {h : Heap} {j : Nat} (hn : n ≤ h.next)
    (hj : n ≤ j) (v : List Row) : EvolvesFrom n h (h.set j v) :=
  ⟨hn, by simp only [Heap.set]; omega,
   fun i hi => h.get_set_ne v (show i ≠ j by omega)⟩

theorem get_data_st_evolves (h : Heap) (dataAll : Nat) (hasTicker : Bool)
    (tkr : String) (d0 d1 : Int) {n : Nat} (hn : n ≤ h.next) :
    EvolvesFrom n h (get_data_st h dataAll hasTicker tkr d0 d1).2 ∧
      h.next ≤ (get_data_st h dataAll hasTicker tkr d0 d1).2.next := by
  cases hasTicker with
  | false =>
    simp only [get_data_st, Bool.false_eq_true, if_false]
    exact ⟨((EvolvesFrom.alloc hn _).trans
        (EvolvesFrom.alloc (show n ≤ h.next + 1 by omega) _)).trans
        (EvolvesFrom.alloc (show n ≤ h.next + 1 + 1 by omega) _),
      show h.next ≤ h.next + 1 + 1 + 1 by omega⟩
  | true =>
    simp only [get_data_st, if_true]
    exact ⟨(((EvolvesFrom.alloc hn _).trans
        (EvolvesFrom.alloc (show n ≤ h.next + 1 by omega) _)).trans
        (EvolvesFrom.alloc (show n ≤ h.next + 1 + 1 by omega) _)).trans
        (EvolvesFrom.alloc (show n ≤ h.next + 1 + 1 + 1 by omega) _),
      show h.next ≤ h.next + 1 + 1 + 1 + 1 by omega⟩

theorem price_history_st_evolves (h : Heap) (dataAll : Nat) (hasTicker : Bool)
    (tkr : String) (d0 d1 : Int) {n : Nat} (hn : n ≤ h.next) :
    EvolvesFrom n h (price_history_st h dataAll hasTicker tkr d0 d1) := by
  obtain ⟨e1, hnx⟩ := @get_data_st_evolves h dataAll hasTicker tkr d0 d1 n hn
  simp only [price_history_st]
  set a := get_data_st h dataAll hasTicker tkr d0 d1 with ha
  set b := a.2.alloc (a.2.get a.1) with hb
  have e2 : EvolvesFrom n a.2 b.2 := EvolvesFrom.alloc e1.2.1 _
  split
  · exact (e1.trans e2).trans
      (EvolvesFrom.set e2.2.1 (show n ≤ b.1 from le_trans e1.2.1 le_rfl) _)
  · exact e1.trans e2

/-- The retention predicate of the filter stage: instrument match (always
satisfied when the dataset has no `Ticker` column) and membership in the
closed selected date range. -/
def keepPred (hasTicker : Bool) (tkr : String) (d0 d1 : Int) (r : Row) : Bool :=
  (!hasTicker || r.ticker == tkr) && (decide (d0 ≤ r.date) && decide (r.date ≤ d1))

theorem get_data_eq (D : Dataset) (tkr : String) (d0 d1 : Int) :
    get_data D tkr d0 d1 =
      List.mergeSort (D.rows.filter (keepPred D.hasTicker tkr d0 d1))
        (fun a b => decide (a.date ≤ b.date)) := by
  unfold get_data
  cases hT : D.hasTicker
  · simp only [Bool.false_eq_true, if_false]
    congr 1
  · simp only [eq_self_iff_true, if_true, List.filter_filter]
    congr 1
    apply List.filter_congr
    intro r _
    simp [keepPred, Bool.and_comm]

theorem dateLE_trans : ∀ a b c : Row, decide (a.date ≤ b.date) = true →
    decide (b.date ≤ c.date) = true → decide (a.date ≤ c.date) = true := by
  intro a b c hab hbc
  simp only [decide_eq_true_eq] at hab hbc ⊢
  omega

theorem dateLE_total : ∀ a b : Row,
    (decide (a.date ≤ b.date) || decide (b.date ≤ a.date)) = true := by
  intro a b
  simp only [Bool.or_eq_true, decide_eq_true_eq]
  omega

theorem get_data_pairwiseB (D : Dataset) (tkr : String) (d0 d1 : Int) :
    (get_data D tkr d0 d1).Pairwise (fun a b : Row => decide (a.date ≤ b.date)) := by
  rw [get_data_eq]
  exact List.sorted_mergeSort dateLE_trans dateLE_total _

theorem get_data_mem_keepPred (D : Dataset) (tkr : String) (d0 d1 : Int) :
    ∀ r ∈ get_data D tkr d0 d1, keepPred D.hasTicker tkr d0 d1 r = true := by
  intro r hr
  rw [get_data_eq] at hr
  exact List.of_mem_filter (List.mem_mergeSort.1 hr)

/-- C1: the filter stage returns exactly the rows of the dataset whose
instrument matches the selection (all rows when no `Ticker` column is
present) and whose date lies inside the closed selected range — a
permutation of that filtered subsequence, with no qualifying row omitted —
and the returned sequence is non-decreasing by date. -/
theorem get_data_rows_and_order (D : Dataset) (tkr : String) (d0 d1 : Int) :
    (get_data D tkr d0 d1).Perm (D.rows.filter (keepPred D.hasTicker tkr d0 d1)) ∧
      (get_data D tkr d0 d1).Pairwise (fun a b : Row => a.date ≤ b.date) := by
  constructor
  · rw [get_data_eq]
    exact List.mergeSort_perm _ _
  · exact (get_data_pairwiseB D tkr d0 d1).imp (fun h => by simpa using h)

/-- Idempotence of the filter stage, scoped to datasets whose rows carry
pairwise-distinct dates (the dataset invariant stated by the spec).  On
such data every correct sort returns the same sequence, so the statement
is independent of how `sort_values` orders equal dates.  On
duplicate-date rows the source's default quicksort leaves the tie order
unspecified and the fixed point is not guaranteed, so no unrestricted
idempotence theorem is stated.  The embedding's sort is deterministic, so
the proof does not consume the hypothesis; the hypothesis records the
scope on which the statement is faithful to the program. -/
theorem get_data_idempotent_of_distinct_dates (D : Dataset) (tkr : String)
    (d0 d1 : Int)
    (_hdist : D.rows.Pairwise (fun a b : Row => a.date ≠ b.date)) :
    get_data ⟨D.hasTicker, get_data D tkr d0 d1⟩ tkr d0 d1 = get_data D tkr d0 d1 := by
  rw [get_data_eq ⟨D.hasTicker, get_data D tkr d0 d1⟩ tkr d0 d1]
  rw [show (Dataset.mk D.hasTicker (get_data D tkr d0 d1)).rows = get_data D tkr d0 d1 from rfl]
  rw [show (Dataset.mk D.hasTicker (get_data D tkr d0 d1)).hasTicker = D.hasTicker from rfl]
  rw [List.filter_eq_self.mpr (get_data_mem_keepPred D tkr d0 d1)]
  exact List.mergeSort_of_sorted (get_data_pairwiseB D tkr d0 d1)

/-- A concrete observation used to instantiate theorems with hypotheses. -/
def rowA : Row :=
  ⟨"A", 5, 10, [("Ticker", Cell.text "A"), ("Close", Cell.num 10)]⟩

/-- C7: a malformed selection — an instrument identifier matching no row,
or an out-of-order date range — makes the filter stage return an empty
series rather than an error, and every downstream stage evaluates on that
empty series to its defined empty/zero/absent result. -/
theorem pipeline_empty_on_malformed (D : Dataset) (tkr : String) (d0 d1 : Int)
    (h : (D.hasTicker = true ∧ ∀ r ∈ D.rows, ¬ r.ticker = tkr) ∨ d1 < d0) :
    get_data D tkr d0 d1 = [] ∧
      get_change (closes (get_data D tkr d0 d1)) = 0 ∧
      get_change_percent (closes (get_data D tkr d0 d1)) = 0 ∧
      price (closes (get_data D tkr d0 d1)) = "N/A" ∧
      price_history_sma (closes (get_data D tkr d0 d1)) = none ∧
      latest_data (get_data D tkr d0 d1) = [] := by
  have hnil : get_data D tkr d0 d1 = [] := by
    rw [get_data_eq]
    have hf : D.rows.filter (keepPred D.hasTicker tkr d0 d1) = [] := by
      rw [List.filter_eq_nil_iff]
      intro r hr
      rcases h with ⟨hT, hall⟩ | hlt
      · simp [keepPred, hT, hall r hr]
      · simp only [keepPred, Bool.and_eq_true, decide_eq_true_eq]
        rintro ⟨-, h0, h1⟩
        omega
    rw [hf, List.mergeSort_nil]
  rw [hnil]
  exact ⟨rfl, rfl, rfl, rfl, rfl, rfl⟩

/-- Instantiation of `pipeline_empty_on_malformed` at a concrete dataset
and an instrument identifier present in no row. -/
theorem pipeline_empty_on_malformed_witness :
    get_data ⟨true, [rowA]⟩ "B" 0 10 = [] ∧
      get_change (closes (get_data ⟨true, [rowA]⟩ "B" 0 10)) = 0 ∧
      get_change_percent (closes (get_data ⟨true, [rowA]⟩ "B" 0 10)) = 0 ∧
      price (closes (get_data ⟨true, [rowA]⟩ "B" 0 10)) = "N/A" ∧
      price_history_sma (closes (get_data ⟨true, [rowA]⟩ "B" 0 10)) = none ∧
      latest_data (get_data ⟨true, [rowA]⟩ "B" 0 10) = [] :=
  pipeline_empty_on_malformed ⟨true, [rowA]⟩ "B" 0 10 (Or.inl ⟨rfl, by decide⟩)

theorem getD_concat_two (front : List ℚ) (a b : ℚ) :
    (front ++ [a, b]).getD (front.length + 1) 0 = b ∧
      (front ++ [a, b]).getD front.length 0 = a := by
  induction front with
  | nil => exact ⟨rfl, rfl⟩
  | cons y t ih => simpa using ih

theorem getD_concat_one (front : List ℚ) (x : ℚ) :
    (front ++ [x]).getD front.length 0 = x := by
  induction front with
  | nil => rfl
  | cons y t ih => simp [ih]

theorem get_change_concat (front : List ℚ) (a b : ℚ) :
    get_change (front ++ [a, b]) = b - a ∧
      get_change_percent (front ++ [a, b]) = (b - a) / a * 100 := by
  have hlen : (front ++ [a, b]).length = front.length + 2 := by simp
  have h1 : 1 < (front ++ [a, b]).length := by omega
  have hi1 : (front ++ [a, b]).length - 1 = front.length + 1 := by omega
  have hi2 : (front ++ [a, b]).length - 2 = front.length := by omega
  obtain ⟨hb, ha⟩ := getD_concat_two front a b
  unfold get_change get_change_percent
  rw [if_pos h1, if_pos h1, hi1, hi2, hb, ha]
  exact ⟨rfl, rfl⟩

/-- C2: for a series in ascending timestamp order, `change` is the last
close minus the second-to-last close, and `percentChange` is that
difference divided by the second-to-last close times 100; a series with
fewer than two closes yields exactly `0` (not an error, not `NaN`) for
both. -/
theorem metrics_change_spec (close : List ℚ) :
    (∀ front a b, close = front ++ [a, b] →
        get_change close = b - a ∧ get_change_percent close = (b - a) / a * 100) ∧
      (close.length < 2 → get_change close = 0 ∧ get_change_percent close = 0) := by
  constructor
  · rintro front a b rfl
    exact get_change_concat front a b
  · intro hlt
    have h1 : ¬ 1 < close.length := by omega
    unfold get_change get_change_percent
    rw [if_neg h1, if_neg h1]
    exact ⟨rfl, rfl⟩

/-- Instantiation of `metrics_change_spec`: closes `[100, 105]` give a
change of `5` and a percent change of `5`. -/
theorem metrics_change_spec_witness :
    get_change [(100 : ℚ), 105] = 5 ∧ get_change_percent [(100 : ℚ), 105] = 5 := by
  obtain ⟨h, -⟩ := metrics_change_spec [(100 : ℚ), 105]
  obtain ⟨hc, hp⟩ := h [] 100 105 rfl
  exact ⟨by rw [hc]; norm_num, by rw [hp]; norm_num⟩

theorem pad2_length : ∀ k, k < 100 → (pad2 k).length = 2 := by decide

theorem fmt2_decomp (q : ℚ) :
    ∃ s k, k < 100 ∧ fmt2 q = s ++ "." ++ pad2 k ∧ (pad2 k).length = 2 := by
  refine ⟨(if q < 0 then "-" else "") ++ toString ((roundHalfEven (q * 100)).natAbs / 100),
    (roundHalfEven (q * 100)).natAbs % 100, Nat.mod_lt _ (by norm_num), rfl, ?_⟩
  exact pad2_length _ (Nat.mod_lt _ (by norm_num))

/-- C10: the latest-price display is total over every filtered series —
`"N/A"` on an empty series, and otherwise the last close rendered with
exactly two decimal digits. -/
theorem price_total_spec (close : List ℚ) :
    (close = [] → price close = "N/A") ∧
      (∀ front x, close = front ++ [x] → price close = fmt2 x) ∧
      (∀ q : ℚ, ∃ s k, k < 100 ∧ fmt2 q = s ++ "." ++ pad2 k ∧ (pad2 k).length = 2) := by
  refine ⟨?_, ?_, fmt2_decomp⟩
  · rintro rfl
    rfl
  · rintro front x rfl
    have hne : (!(front ++ [x]).isEmpty) = true := by simp
    have hi : (front ++ [x]).length - 1 = front.length := by simp
    unfold price
    rw [if_pos hne, hi, getD_concat_one front x]

/-- Instantiation of `price_total_spec`: the empty series displays `"N/A"`
and the series with single close `1234.5` displays `"1234.50"`. -/
theorem price_total_spec_witness :
    price ([] : List ℚ) = "N/A" ∧ price [(2469 : ℚ) / 2] = "1234.50" := by
  obtain ⟨h0, -, -⟩ := price_total_spec ([] : List ℚ)
  obtain ⟨-, h2, -⟩ := price_total_spec [(2469 : ℚ) / 2]
  refine ⟨h0 rfl, ?_⟩
  rw [h2 [] ((2469 : ℚ) / 2) rfl]
  have h1 : roundHalfEven ((2469 : ℚ) / 2 * 100) = 123450 := by
    unfold roundHalfEven
    norm_num
  unfold fmt2
  rw [h1]
  norm_num
  decide

/-- C4: the snapshot stage is total — an empty sequence on an empty
series, and otherwise every field of the last row projected into
(name, value) pairs in the dataset's column order, numeric values rendered
with exactly two decimal digits and other values by their natural string
form. -/
theorem latest_data_spec (df : List Row) :
    (df = [] → latest_data df = []) ∧
      (∀ front r, df = front ++ [r] →
        latest_data df = r.cells.map (fun nc => (nc.1, formatCell nc.2))) ∧
      (∀ s, formatCell (Cell.text s) = s) ∧
      (∀ q, formatCell (Cell.num q) = fmt2 q) ∧
      (∀ q : ℚ, ∃ s k, k < 100 ∧ fmt2 q = s ++ "." ++ pad2 k ∧ (pad2 k).length = 2) := by
  refine ⟨?_, ?_, fun s => rfl, fun q => rfl, fmt2_decomp⟩
  · rintro rfl
    rfl
  · rintro front r rfl
    unfold latest_data
    rw [List.getLast?_concat]

/-- Instantiation of `latest_data_spec` at an empty frame and at a
one-row frame whose last row holds a text cell and the numeric close
`10` (rendered `"10.00"`). -/
theorem latest_data_spec_witness :
    latest_data [] = [] ∧
      latest_data [rowA] = [("Ticker", "A"), ("Close", "10.00")] := by
  obtain ⟨h0, -, -, -, -⟩ := latest_data_spec ([] : List Row)
  obtain ⟨-, h2, -, -, -⟩ := latest_data_spec [rowA]
  refine ⟨h0 rfl, ?_⟩
  rw [h2 [] rowA rfl]
  have h1 : roundHalfEven ((10 : ℚ) * 100) = 1000 := by
    unfold roundHalfEven
    norm_num
  simp only [rowA, List.map_cons, List.map_nil, formatCell]
  unfold fmt2
  rw [h1]
  norm_num
  decide

theorem sum_take_drop (l : List ℚ) :
    ∀ (w k : Nat), k + w ≤ l.length →
      ((l.drop k).take w).sum = ∑ j ∈ Finset.range w, l.getD (k + j) 0 := by
  intro w
  induction w with
  | zero =>
    intro k _
    simp
  | succ m ih =>
    intro k hk
    have hkl : k < l.length := by omega
    have hd : l.drop k = l.getD k 0 :: l.drop (k + 1) := by
      rw [List.drop_eq_getElem_cons hkl]
      congr 1
      rw [List.getD_eq_getElem?_getD, List.getElem?_eq_getElem hkl]
      rfl
    rw [hd, List.take_succ_cons, List.sum_cons, ih (k + 1) (by omega),
      Finset.sum_range_succ', add_comm (l.getD k 0)]
    congr 1
    apply Finset.sum_congr rfl
    intro j _
    congr 1
    omega

theorem rollingMean_getD (w : Nat) (xs : List ℚ) (i : Nat) (hi : i < xs.length) :
    (rollingMean w xs).getD i none =
      if w ≤ i + 1 then some (((xs.take (i + 1)).drop (i + 1 - w)).sum / (w : ℚ))
      else none := by
  unfold rollingMean
  rw [List.getD_eq_getElem?_getD, List.getElem?_map, List.getElem?_range hi]
  rfl

/-- C3: for a series with at least 7 points the chart overlay exists and
holds, at each index `i ≥ 6`, the unweighted arithmetic mean of the 7
closes at indices `i-6..i`, while the overlay value is absent (not zero)
at indices `0..5`; for a series with fewer than 7 points the overlay is
entirely absent — no shrunken-window average is computed. -/
theorem price_history_sma_spec (close : List ℚ) :
    (7 ≤ close.length →
        ∃ ov, price_history_sma close = some ov ∧ ov.length = close.length ∧
          (∀ i, i < close.length → 6 ≤ i →
            ov.getD i none =
              some ((∑ j ∈ Finset.range 7, close.getD (i - 6 + j) 0) / 7)) ∧
          (∀ i, i < 6 → ov.getD i none = none)) ∧
      (close.length < 7 → price_history_sma close = none) := by
  constructor
  · intro h7
    refine ⟨rollingMean 7 close, ?_, ?_, ?_, ?_⟩
    · unfold price_history_sma
      rw [if_pos h7]
    · unfold rollingMean
      simp
    · intro i hi h6
      rw [rollingMean_getD 7 close i hi, if_pos (show 7 ≤ i + 1 by omega)]
      have e1 : i + 1 - 7 = i - 6 := by omega
      rw [e1, List.drop_take]
      have e2 : i + 1 - (i - 6) = 7 := by omega
      rw [e2, sum_take_drop close 7 (i - 6) (by omega)]
      norm_num
    · intro i hi
      have hi' : i < close.length := by omega
      rw [rollingMean_getD 7 close i hi', if_neg (show ¬ 7 ≤ i + 1 by omega)]
  · intro hlt
    unfold price_history_sma
    rw [if_neg (by omega)]

/-- Instantiation of `price_history_sma_spec`: for closes `[1..7]` the
overlay exists, equals `4` at index 6 and is absent at index 0. -/
theorem price_history_sma_spec_witness :
    (price_history_sma [(1 : ℚ), 2, 3, 4, 5, 6, 7]).map
        (fun ov => (ov.getD 6 none, ov.getD 0 none)) = some (some 4, none) := by
  obtain ⟨h7, -⟩ := price_history_sma_spec [(1 : ℚ), 2, 3, 4, 5, 6, 7]
  obtain ⟨ov, hov, hlen, hval, hnone⟩ := h7 (by simp)
  rw [hov]
  have h6 := hval 6 (by simp) (by omega)
  have h0 := hnone 0 (by omega)
  rw [Option.map_some', h6, h0]
  norm_num [Finset.sum_range_succ, List.getD]

/-- C5: at closes `[0, 5]` (ascending), the percent-change stage evaluated
with the IEEE-754 float semantics the source runs under produces the
special value `+inf` — it propagates a special float to the display layer
instead of returning a documented constant or sentinel. -/
theorem get_change_percent_zero_divisor_eval :
    get_change_percent_float [0, 5] = FVal.inf := by
  norm_num [get_change_percent_float, FVal.sub, FVal.div, FVal.mul, List.getD]

/-- C9: a pipeline evaluation leaves the process-wide dataset frame
unchanged: the filter stage only allocates fresh frames, and the chart
stage's single in-place write (the `SMA` column assignment) lands on the
fresh frame produced by `reset_index(drop=True)`, never on `data_all`.
The metrics and snapshot stages are pure functions of the filtered frame
and write to no frame at all. -/
theorem pipeline_preserves_dataset (h : Heap) (dataAll : Nat) (hasTicker : Bool)
    (tkr : String) (d0 d1 : Int) (hd : dataAll < h.next) :
    (price_history_st h dataAll hasTicker tkr d0 d1).get dataAll = h.get dataAll ∧
      (get_data_st h dataAll hasTicker tkr d0 d1).2.get dataAll = h.get dataAll := by
  have h1 := price_history_st_evolves h dataAll hasTicker tkr d0 d1
    (show dataAll + 1 ≤ h.next by omega)
  have h2 := @get_data_st_evolves h dataAll hasTicker tkr d0 d1 (dataAll + 1)
    (by omega)
  exact ⟨h1.2.2 dataAll (by omega), h2.1.2.2 dataAll (by omega)⟩

/-- Instantiation of `pipeline_preserves_dataset` at a one-frame heap
holding the loaded dataset. -/
theorem pipeline_preserves_dataset_witness :
    (price_history_st ⟨1, [(0, [rowA])]⟩ 0 true "A" 0 10).get 0 =
        Heap.get ⟨1, [(0, [rowA])]⟩ 0 ∧
      (get_data_st ⟨1, [(0, [rowA])]⟩ 0 true "A" 0 10).2.get 0 =
        Heap.get ⟨1, [(0, [rowA])]⟩ 0 :=
  pipeline_preserves_dataset ⟨1, [(0, [rowA])]⟩ 0 true "A" 0 10 (by decide)

end MnfApp
